import Mathlib

/-!
Verification development for the dependency-checker tool.

The definitions below are a shallow embedding of the version-comparison and
self-upgrade-classification engine of the tool: the semantic-version parser
and precedence order (modelling the semver library functions the code calls:
parse, compare, eq, gt, major/minor/patch, satisfies, rcompare), the
per-dependency evaluation pipeline of `main` (filtering the available
versions by the declared range, sorting by `rcompare` and taking the head),
`checkUpgradeType`, `willSelfUpgrade`, `flattenDependencies`,
`getLastVersionInfo`'s failure recovery, and the `--check` filter logic.

JavaScript conventions are modelled explicitly: absent values (`null` /
`undefined`) are `Option.none`; the falsiness test `!s` on a string is
`none` or the empty string; semver functions that throw a TypeError on
malformed input are embedded in `Except String`.
-/

/-! ### Ordering helpers -/

theorem Ordering.then_swap (a b : Ordering) : (a.then b).swap = a.swap.then b.swap := by
  cases a <;> rfl

/-- Three-way comparison derived from a linear order (models JavaScript
numeric / code-unit comparison used by the semver library). -/
def cmpv {α : Type} [LinearOrder α] (a b : α) : Ordering :=
  if a < b then .lt else if a = b then .eq else .gt

theorem cmpv_eq_lt {α : Type} [LinearOrder α] {a b : α} : cmpv a b = .lt ↔ a < b := by
  unfold cmpv
  split_ifs with h1 h2
  · exact iff_of_true rfl h1
  · exact iff_of_false (by simp) h1
  · exact iff_of_false (by simp) h1

theorem cmpv_eq_eq {α : Type} [LinearOrder α] {a b : α} : cmpv a b = .eq ↔ a = b := by
  unfold cmpv
  split_ifs with h1 h2
  · exact iff_of_false (by simp) (ne_of_lt h1)
  · exact iff_of_true rfl h2
  · exact iff_of_false (by simp) h2

theorem cmpv_eq_gt {α : Type} [LinearOrder α] {a b : α} : cmpv a b = .gt ↔ b < a := by
  unfold cmpv
  split_ifs with h1 h2
  · exact iff_of_false (by simp) (lt_asymm h1)
  · exact iff_of_false (by simp) (by rw [h2]; exact lt_irrefl b)
  · exact iff_of_true rfl (lt_of_le_of_ne (le_of_not_lt h1) (fun h => h2 h.symm))

/-- The laws a three-way comparator must satisfy for sorting and maximum
selection to be meaningful: antisymmetry of the verdict, transitivity of
strict ordering, and substitutivity of ties. -/
structure LawfulCmp {α : Type} (f : α → α → Ordering) : Prop where
  swap : ∀ a b, f a b = (f b a).swap
  lt_trans : ∀ {a b c}, f a b = .lt → f b c = .lt → f a c = .lt
  eq_left : ∀ {a b} (c : α), f a b = .eq → f a c = f b c
  refl : ∀ a, f a a = .eq

namespace LawfulCmp

variable {α : Type} {f : α → α → Ordering}

theorem eq_symm (h : LawfulCmp f) {a b : α} (hab : f a b = .eq) : f b a = .eq := by
  have hs := h.swap b a
  rw [hab] at hs
  exact hs

theorem eq_right (h : LawfulCmp f) {b c : α} (a : α) (hbc : f b c = .eq) :
    f a b = f a c := by
  have h1 : f c b = .eq := h.eq_symm hbc
  have h2 : f c a = f b a := h.eq_left a h1
  rw [h.swap a b, h.swap a c, h2]

theorem gt_iff_lt (h : LawfulCmp f) {a b : α} : f a b = .gt ↔ f b a = .lt := by
  constructor
  · intro hab
    have hs := h.swap a b
    rw [hab] at hs
    cases hba : f b a
    · rfl
    · rw [hba] at hs; simp [Ordering.swap] at hs
    · rw [hba] at hs; simp [Ordering.swap] at hs
  · intro hba
    rw [h.swap a b, hba]; rfl

theorem le_trans (h : LawfulCmp f) {a b c : α} (hab : f a b ≠ .gt) (hbc : f b c ≠ .gt) :
    f a c ≠ .gt := by
  cases h1 : f a b with
  | gt => exact absurd h1 hab
  | eq => rw [h.eq_left c h1]; exact hbc
  | lt =>
    cases h2 : f b c with
    | gt => exact absurd h2 hbc
    | eq => rw [← h.eq_right a h2, h1]; simp
    | lt => rw [h.lt_trans h1 h2]; simp

theorem total (h : LawfulCmp f) (a b : α) : f a b ≠ .gt ∨ f b a ≠ .gt := by
  cases hab : f a b with
  | lt | eq => left; simp [hab]
  | gt =>
    right
    rw [h.gt_iff_lt.mp hab]
    simp

theorem comap (h : LawfulCmp f) {β : Type} (g : β → α) :
    LawfulCmp (fun a b => f (g a) (g b)) where
  swap a b := h.swap (g a) (g b)
  lt_trans h1 h2 := h.lt_trans h1 h2
  eq_left c h1 := h.eq_left (g c) h1
  refl a := h.refl (g a)

theorem thenc {g : α → α → Ordering} (hf : LawfulCmp f) (hg : LawfulCmp g) :
    LawfulCmp (fun a b => (f a b).then (g a b)) where
  swap a b := by rw [hf.swap a b, hg.swap a b, Ordering.then_swap]
  lt_trans := by
    intro a b c h1 h2
    rw [Ordering.then_eq_lt] at h1 h2 ⊢
    rcases h1 with h1 | ⟨h1, h1'⟩ <;> rcases h2 with h2 | ⟨h2, h2'⟩
    · exact Or.inl (hf.lt_trans h1 h2)
    · rw [← hf.eq_right a h2]; exact Or.inl h1
    · rw [hf.eq_left c h1]; exact Or.inl h2
    · right
      refine ⟨?_, hg.lt_trans h1' h2'⟩
      rw [hf.eq_left c h1]; exact h2
  eq_left := by
    intro a b c h1
    rw [Ordering.then_eq_eq] at h1
    rw [hf.eq_left c h1.1, hg.eq_left c h1.2]
  refl a := by rw [hf.refl a, hg.refl a]; rfl

end LawfulCmp

theorem lawful_cmpv {α : Type} [LinearOrder α] : LawfulCmp (cmpv (α := α)) where
  swap a b := by
    rcases lt_trichotomy a b with h | h | h
    · rw [cmpv_eq_lt.mpr h, cmpv_eq_gt.mpr h]; rfl
    · rw [cmpv_eq_eq.mpr h, cmpv_eq_eq.mpr h.symm]; rfl
    · rw [cmpv_eq_gt.mpr h, cmpv_eq_lt.mpr h]; rfl
  lt_trans h1 h2 := cmpv_eq_lt.mpr (lt_trans (cmpv_eq_lt.mp h1) (cmpv_eq_lt.mp h2))
  eq_left c h1 := by rw [cmpv_eq_eq.mp h1]
  refl a := cmpv_eq_eq.mpr rfl

/-- Lexicographic comparison of lists by a comparator on elements; a strict
prefix is smaller (models JavaScript array/string lexicographic comparison
and the semver prerelease identifier-list comparison). -/
def cmpLexList {α : Type} (f : α → α → Ordering) : List α → List α → Ordering
  | [], [] => .eq
  | [], _ :: _ => .lt
  | _ :: _, [] => .gt
  | a :: as, b :: bs => (f a b).then (cmpLexList f as bs)

theorem cmpLexList_swap {α : Type} {f : α → α → Ordering} (hf : LawfulCmp f) :
    ∀ as bs, cmpLexList f as bs = (cmpLexList f bs as).swap
  | [], [] => rfl
  | [], _ :: _ => rfl
  | _ :: _, [] => rfl
  | a :: as, b :: bs => by
    rw [cmpLexList, cmpLexList, Ordering.then_swap, ← hf.swap a b,
      ← cmpLexList_swap hf as bs]

theorem cmpLexList_lt_trans {α : Type} {f : α → α → Ordering} (hf : LawfulCmp f) :
    ∀ as bs cs, cmpLexList f as bs = .lt → cmpLexList f bs cs = .lt →
      cmpLexList f as cs = .lt
  | [], [], _ :: _, _, _ => rfl
  | [], _ :: _, _ :: _, _, _ => rfl
  | a :: as, b :: bs, c :: cs, h1, h2 => by
    rw [cmpLexList, Ordering.then_eq_lt] at h1 h2 ⊢
    rcases h1 with h1 | ⟨h1, h1'⟩ <;> rcases h2 with h2 | ⟨h2, h2'⟩
    · exact Or.inl (hf.lt_trans h1 h2)
    · rw [← hf.eq_right a h2]; exact Or.inl h1
    · rw [hf.eq_left c h1]; exact Or.inl h2
    · right
      refine ⟨?_, cmpLexList_lt_trans hf as bs cs h1' h2'⟩
      rw [hf.eq_left c h1]; exact h2

theorem cmpLexList_eq_left {α : Type} {f : α → α → Ordering} (hf : LawfulCmp f) :
    ∀ as bs cs, cmpLexList f as bs = .eq → cmpLexList f as cs = cmpLexList f bs cs
  | [], [], _, _ => rfl
  | a :: as, b :: bs, [], _ => rfl
  | a :: as, b :: bs, c :: cs, h1 => by
    rw [cmpLexList, Ordering.then_eq_eq] at h1
    rw [cmpLexList, cmpLexList, hf.eq_left c h1.1,
      cmpLexList_eq_left hf as bs cs h1.2]

theorem cmpLexList_refl {α : Type} {f : α → α → Ordering} (hf : LawfulCmp f) :
    ∀ as, cmpLexList f as as = .eq
  | [] => rfl
  | a :: as => by rw [cmpLexList, hf.refl a, cmpLexList_refl hf as]; rfl

theorem lawful_cmpLexList {α : Type} {f : α → α → Ordering} (hf : LawfulCmp f) :
    LawfulCmp (cmpLexList f) where
  swap := cmpLexList_swap hf
  lt_trans h1 h2 := cmpLexList_lt_trans hf _ _ _ h1 h2
  eq_left c h1 := cmpLexList_eq_left hf _ _ c h1
  refl := cmpLexList_refl hf

/-! ### Semantic versions (model of the semver library's SemVer class) -/

/-- A prerelease identifier: numeric identifiers compare numerically and
are below alphanumeric identifiers; alphanumeric identifiers compare
lexically by character code. -/
inductive PreId where
  | num : Nat → PreId
  | alpha : List Char → PreId
deriving DecidableEq

/-- A parsed semantic version: major, minor, patch and the list of
prerelease identifiers (build metadata is validated by the parser but
dropped, since the semver library ignores it for every comparison). -/
structure SemVer where
  major : Nat
  minor : Nat
  patch : Nat
  pre : List PreId
deriving DecidableEq

/-- Comparison of prerelease identifiers, as in semver `compareIdentifiers`:
numbers before alphanumerics, numbers numerically, alphanumerics lexically. -/
def PreId.cmp : PreId → PreId → Ordering
  | .num a, .num b => cmpv a b
  | .num _, .alpha _ => .lt
  | .alpha _, .num _ => .gt
  | .alpha s, .alpha t => cmpLexList cmpv s t

theorem lawful_preIdCmp : LawfulCmp PreId.cmp where
  swap a b := by
    cases a <;> cases b <;> simp only [PreId.cmp] <;> try rfl
    · exact lawful_cmpv.swap _ _
    · exact (lawful_cmpLexList lawful_cmpv).swap _ _
  lt_trans := by
    intro a b c h1 h2
    cases a <;> cases b <;> cases c <;> simp only [PreId.cmp] at h1 h2 ⊢ <;>
      first
        | rfl
        | exact lawful_cmpv.lt_trans h1 h2
        | exact (lawful_cmpLexList lawful_cmpv).lt_trans h1 h2
        | exact absurd h1 (by decide)
        | exact absurd h2 (by decide)
  eq_left := by
    intro a b c h1
    cases a <;> cases b <;> cases c <;> simp only [PreId.cmp] at h1 ⊢ <;>
      first
        | rfl
        | rw [cmpv_eq_eq.mp h1]
        | exact (lawful_cmpLexList lawful_cmpv).eq_left _ h1
        | exact absurd h1 (by decide)
  refl a := by
    cases a <;> simp only [PreId.cmp]
    · exact lawful_cmpv.refl _
    · exact (lawful_cmpLexList lawful_cmpv).refl _

/-- Comparison of prerelease lists, as in semver `comparePre`: a version
without prerelease identifiers has higher precedence than any version with
them; otherwise identifiers compare lexicographically with a shorter list
first. -/
def cmpPre : List PreId → List PreId → Ordering
  | [], [] => .eq
  | [], _ :: _ => .gt
  | _ :: _, [] => .lt
  | a :: as, b :: bs => cmpLexList PreId.cmp (a :: as) (b :: bs)

theorem lawful_cmpPre : LawfulCmp cmpPre where
  swap a b := by
    cases a <;> cases b <;> simp only [cmpPre] <;> try rfl
    exact (lawful_cmpLexList lawful_preIdCmp).swap _ _
  lt_trans := by
    intro a b c h1 h2
    cases a <;> cases b <;> cases c <;> simp only [cmpPre] at h1 h2 ⊢ <;>
      first
        | rfl
        | exact (lawful_cmpLexList lawful_preIdCmp).lt_trans h1 h2
        | exact absurd h1 (by decide)
        | exact absurd h2 (by decide)
  eq_left := by
    intro a b c h1
    cases a <;> cases b <;> cases c <;> simp only [cmpPre] at h1 ⊢ <;>
      first
        | rfl
        | exact (lawful_cmpLexList lawful_preIdCmp).eq_left _ h1
        | exact absurd h1 (by decide)
  refl a := by
    cases a <;> simp only [cmpPre]
    exact (lawful_cmpLexList lawful_preIdCmp).refl _

/-- Semantic-version precedence, as in semver `compare`: major, then minor,
then patch numerically, then the prerelease rule. Build metadata does not
participate. -/
def SemVer.cmp (a b : SemVer) : Ordering :=
  (cmpv a.major b.major).then
    ((cmpv a.minor b.minor).then
      ((cmpv a.patch b.patch).then (cmpPre a.pre b.pre)))

theorem lawful_semverCmp : LawfulCmp SemVer.cmp :=
  (lawful_cmpv.comap SemVer.major).thenc
    ((lawful_cmpv.comap SemVer.minor).thenc
      ((lawful_cmpv.comap SemVer.patch).thenc (lawful_cmpPre.comap SemVer.pre)))

/-! ### Version-string parsing (model of `new SemVer(str)` in strict mode) -/

/-- Whitespace characters removed by the `trim()` the semver parser applies. -/
def isWsChar (c : Char) : Bool :=
  c = ' ' || c = '\t' || c = '\n' || c = '\r'

/-- Characters allowed in prerelease/build identifiers: `[0-9A-Za-z-]`. -/
def isIdentChar (c : Char) : Bool :=
  c.isDigit || c.isAlpha || c = '-'

/-- Model of `String.prototype.trim` on a character list. -/
def trimChars (cs : List Char) : List Char :=
  ((cs.dropWhile isWsChar).reverse.dropWhile isWsChar).reverse

/-- Split a character list at every occurrence of a separator character
(model of `String.prototype.split` with a one-character separator). -/
def splitOnChar (sep : Char) : List Char → List (List Char)
  | [] => [[]]
  | c :: rest =>
    if c = sep then
      [] :: splitOnChar sep rest
    else
      match splitOnChar sep rest with
      | h :: t => (c :: h) :: t
      | [] => [[c]]

/-- Split a character list at the first occurrence of a separator, if any
(used to cut off the build-metadata and prerelease parts of a version). -/
def splitFirst (sep : Char) : List Char → List Char × Option (List Char)
  | [] => ([], none)
  | c :: rest =>
    if c = sep then
      ([], some rest)
    else
      let p := splitFirst sep rest
      (c :: p.1, p.2)

/-- Numeric value of a digit list (most significant first). -/
def digitsToNat (cs : List Char) : Nat :=
  cs.foldl (fun acc c => 10 * acc + (c.toNat - 48)) 0

/-- Parse a semver numeric identifier: one or more digits with no leading
zero (the regex `0|[1-9]Dd*` of the semver grammar). -/
def parseNr (cs : List Char) : Option Nat :=
  if cs ≠ [] && cs.all (·.isDigit) && (cs.length = 1 || cs.head? ≠ some '0') then
    some (digitsToNat cs)
  else
    none

/-- Parse one prerelease identifier: all-digit identifiers are numeric (and
must not have a leading zero); otherwise every character must be
alphanumeric or a hyphen. -/
def parsePreId (cs : List Char) : Option PreId :=
  if cs.isEmpty then none
  else if cs.all (·.isDigit) then (parseNr cs).map .num
  else if cs.all isIdentChar then some (.alpha cs) else none

/-- Check the build-metadata part: dot-separated nonempty identifiers of
`[0-9A-Za-z-]` (leading zeros allowed); it is then discarded. -/
def validBuild (cs : List Char) : Bool :=
  (splitOnChar '.' cs).all (fun bid => !bid.isEmpty && bid.all isIdentChar)

/-- Model of `new SemVer(str)` in strict mode: trims, accepts an optional
leading `v`, then `major.minor.patch` numerals without leading zeros,
an optional `-` prerelease identifier list and an optional `+` build part;
`none` models the thrown `TypeError: Invalid Version`. -/
def parseSemVer (s : String) : Option SemVer := do
  let cs := trimChars s.data
  let cs := match cs with
    | 'v' :: rest => rest
    | _ => cs
  let (beforeBuild, buildPart) := splitFirst '+' cs
  match buildPart with
  | some b => if validBuild b then pure () else none
  | none => pure ()
  let (core, prePart) := splitFirst '-' beforeBuild
  match splitOnChar '.' core with
  | [ma, mi, pa] =>
    let major ← parseNr ma
    let minor ← parseNr mi
    let patch ← parseNr pa
    let pre ← match prePart with
      | none => some []
      | some p => (splitOnChar '.' p).mapM parsePreId
    some ⟨major, minor, patch, pre⟩
  | _ => none

/-! ### Version ranges (model of `new Range(str)` and `satisfies`) -/

/-- A primitive comparator operator. -/
inductive CompOp where
  | ltOp | leOp | gtOp | geOp | eqOp
deriving DecidableEq

/-- A primitive comparator: an operator applied to a concrete version. -/
structure Comparator where
  op : CompOp
  ver : SemVer
deriving DecidableEq

/-- Does version `v` pass comparator `c` under precedence order? -/
def matchComparator (v : SemVer) (c : Comparator) : Bool :=
  match c.op with
  | .ltOp => v.cmp c.ver = .lt
  | .leOp => v.cmp c.ver ≠ .gt
  | .gtOp => v.cmp c.ver = .gt
  | .geOp => v.cmp c.ver ≠ .lt
  | .eqOp => v.cmp c.ver = .eq

/-- A partially specified version in a range token: `x`, `X`, `*` or a
missing component is `none` (the X-range grammar of semver). -/
structure PartialVer where
  major : Option Nat
  minor : Option Nat
  patch : Option Nat
  pre : List PreId
deriving DecidableEq

/-- Parse one X-range identifier: `x`, `X` and `*` stand for "any". -/
def parseXId (cs : List Char) : Option (Option Nat) :=
  if cs = ['x'] || cs = ['X'] || cs = ['*'] then
    some none
  else
    (parseNr cs).map some

/-- Parse the version part of a range token (`1`, `1.2`, `1.2.x`,
`1.2.3-rc.1`, optionally `v`-prefixed); prerelease and build parts are only
admitted after three components, as in the X-range grammar. -/
def parsePartialVer (cs0 : List Char) : Option PartialVer := do
  let cs := match cs0 with
    | 'v' :: rest => rest
    | _ => cs0
  let (beforeBuild, buildPart) := splitFirst '+' cs
  let (core, prePart) := splitFirst '-' beforeBuild
  match splitOnChar '.' core with
  | [ma] =>
    if prePart.isSome || buildPart.isSome then none
    else do
      let major ← parseXId ma
      some ⟨major, none, none, []⟩
  | [ma, mi] =>
    if prePart.isSome || buildPart.isSome then none
    else do
      let major ← parseXId ma
      let minor ← parseXId mi
      some ⟨major, minor, none, []⟩
  | [ma, mi, pa] => do
    match buildPart with
    | some b => if validBuild b then pure () else none
    | none => pure ()
    let major ← parseXId ma
    let minor ← parseXId mi
    let patch ← parseXId pa
    let pre ← match prePart with
      | none => some []
      | some p => (splitOnChar '.' p).mapM parsePreId
    some ⟨major, minor, patch, pre⟩
  | _ => none

/-- Desugaring of a caret token, as in semver `replaceCaret`: allow changes
that do not modify the leftmost non-zero component, with an exclusive
`-0`-tagged upper bound. -/
def desugarCaret (p : PartialVer) : List Comparator :=
  match p with
  | ⟨none, _, _, _⟩ => []
  | ⟨some ma, none, _, _⟩ =>
    [⟨.geOp, ⟨ma, 0, 0, []⟩⟩, ⟨.ltOp, ⟨ma + 1, 0, 0, [.num 0]⟩⟩]
  | ⟨some ma, some mi, none, _⟩ =>
    if ma = 0 then
      [⟨.geOp, ⟨0, mi, 0, []⟩⟩, ⟨.ltOp, ⟨0, mi + 1, 0, [.num 0]⟩⟩]
    else
      [⟨.geOp, ⟨ma, mi, 0, []⟩⟩, ⟨.ltOp, ⟨ma + 1, 0, 0, [.num 0]⟩⟩]
  | ⟨some ma, some mi, some pa, pre⟩ =>
    if ma ≠ 0 then
      [⟨.geOp, ⟨ma, mi, pa, pre⟩⟩, ⟨.ltOp, ⟨ma + 1, 0, 0, [.num 0]⟩⟩]
    else if mi ≠ 0 then
      [⟨.geOp, ⟨0, mi, pa, pre⟩⟩, ⟨.ltOp, ⟨0, mi + 1, 0, [.num 0]⟩⟩]
    else
      [⟨.geOp, ⟨0, 0, pa, pre⟩⟩, ⟨.ltOp, ⟨0, 0, pa + 1, [.num 0]⟩⟩]

/-- Desugaring of a tilde token, as in semver `replaceTilde`: allow
patch-level changes (minor-level if only the major is given). -/
def desugarTilde (p : PartialVer) : List Comparator :=
  match p with
  | ⟨none, _, _, _⟩ => []
  | ⟨some ma, none, _, _⟩ =>
    [⟨.geOp, ⟨ma, 0, 0, []⟩⟩, ⟨.ltOp, ⟨ma + 1, 0, 0, [.num 0]⟩⟩]
  | ⟨some ma, some mi, none, _⟩ =>
    [⟨.geOp, ⟨ma, mi, 0, []⟩⟩, ⟨.ltOp, ⟨ma, mi + 1, 0, [.num 0]⟩⟩]
  | ⟨some ma, some mi, some pa, pre⟩ =>
    [⟨.geOp, ⟨ma, mi, pa, pre⟩⟩, ⟨.ltOp, ⟨ma, mi + 1, 0, [.num 0]⟩⟩]

/-- Desugaring of a plain or operator-prefixed token over an X-range, as in
semver `replaceXRange`: missing components widen an equality into an
interval and shift strict bounds to the next concrete version. -/
def desugarOp (op : CompOp) (p : PartialVer) : List Comparator :=
  match p with
  | ⟨none, _, _, _⟩ =>
    match op with
    | .gtOp | .ltOp => [⟨.ltOp, ⟨0, 0, 0, [.num 0]⟩⟩]
    | _ => []
  | ⟨some ma, none, _, _⟩ =>
    match op with
    | .gtOp => [⟨.geOp, ⟨ma + 1, 0, 0, []⟩⟩]
    | .leOp => [⟨.ltOp, ⟨ma + 1, 0, 0, [.num 0]⟩⟩]
    | .ltOp => [⟨.ltOp, ⟨ma, 0, 0, [.num 0]⟩⟩]
    | .geOp => [⟨.geOp, ⟨ma, 0, 0, []⟩⟩]
    | .eqOp => [⟨.geOp, ⟨ma, 0, 0, []⟩⟩, ⟨.ltOp, ⟨ma + 1, 0, 0, [.num 0]⟩⟩]
  | ⟨some ma, some mi, none, _⟩ =>
    match op with
    | .gtOp => [⟨.geOp, ⟨ma, mi + 1, 0, []⟩⟩]
    | .leOp => [⟨.ltOp, ⟨ma, mi + 1, 0, [.num 0]⟩⟩]
    | .ltOp => [⟨.ltOp, ⟨ma, mi, 0, [.num 0]⟩⟩]
    | .geOp => [⟨.geOp, ⟨ma, mi, 0, []⟩⟩]
    | .eqOp => [⟨.geOp, ⟨ma, mi, 0, []⟩⟩, ⟨.ltOp, ⟨ma, mi + 1, 0, [.num 0]⟩⟩]
  | ⟨some ma, some mi, some pa, pre⟩ => [⟨op, ⟨ma, mi, pa, pre⟩⟩]

/-- The lower and upper bounds of a hyphen range `a - b`, as in semver
`hyphenReplace`. -/
def desugarHyphen (p1 p2 : PartialVer) : List Comparator :=
  (match p1 with
   | ⟨none, _, _, _⟩ => []
   | ⟨some ma, none, _, _⟩ => [⟨.geOp, ⟨ma, 0, 0, []⟩⟩]
   | ⟨some ma, some mi, none, _⟩ => [⟨.geOp, ⟨ma, mi, 0, []⟩⟩]
   | ⟨some ma, some mi, some pa, pre⟩ => [⟨.geOp, ⟨ma, mi, pa, pre⟩⟩]) ++
  (match p2 with
   | ⟨none, _, _, _⟩ => []
   | ⟨some ma, none, _, _⟩ => [⟨.ltOp, ⟨ma + 1, 0, 0, [.num 0]⟩⟩]
   | ⟨some ma, some mi, none, _⟩ => [⟨.ltOp, ⟨ma, mi + 1, 0, [.num 0]⟩⟩]
   | ⟨some ma, some mi, some pa, pre⟩ => [⟨.leOp, ⟨ma, mi, pa, pre⟩⟩])

/-- Parse one whitespace-separated range token into its comparator list. -/
def parseToken (t : List Char) : Option (List Comparator) :=
  match t with
  | '^' :: rest => (parsePartialVer rest).map desugarCaret
  | '~' :: '>' :: rest => (parsePartialVer rest).map desugarTilde
  | '~' :: rest => (parsePartialVer rest).map desugarTilde
  | '>' :: '=' :: rest => (parsePartialVer rest).map (desugarOp .geOp)
  | '<' :: '=' :: rest => (parsePartialVer rest).map (desugarOp .leOp)
  | '>' :: rest => (parsePartialVer rest).map (desugarOp .gtOp)
  | '<' :: rest => (parsePartialVer rest).map (desugarOp .ltOp)
  | '=' :: rest => (parsePartialVer rest).map (desugarOp .eqOp)
  | _ => (parsePartialVer t).map (desugarOp .eqOp)

/-- Split an alternative into whitespace-separated tokens, dropping empty
ones. -/
def splitTokens (cs : List Char) : List (List Char) :=
  ((splitOnChar ' ' cs).flatMap (splitOnChar '\t')).filter (fun t => !t.isEmpty)

/-- Split a range string at every `||` (model of `range.split('||')`). -/
def splitBars : List Char → List (List Char)
  | [] => [[]]
  | '|' :: '|' :: rest => [] :: splitBars rest
  | c :: rest =>
    match splitBars rest with
    | h :: t => (c :: h) :: t
    | [] => [[c]]

/-- Parse one `||`-alternative: either a whole-alternative hyphen range or a
conjunction of tokens whose comparator lists are concatenated. An empty
alternative is the full range `*`. -/
def parseAlternative (cs : List Char) : Option (List Comparator) :=
  match splitTokens cs with
  | [t1, ['-'], t2] => do
    let p1 ← parsePartialVer t1
    let p2 ← parsePartialVer t2
    some (desugarHyphen p1 p2)
  | ts => do
    let css ← ts.mapM parseToken
    some css.flatten

/-- Model of `new Range(str)`: the `||`-separated alternatives, each a
comparator conjunction; `none` models the thrown `TypeError: Invalid
range`. -/
def parseRange (r : String) : Option (List (List Comparator)) :=
  (splitBars r.data).mapM parseAlternative

/-- Model of `Range.testSet`: every comparator must pass, and a prerelease
version is only admitted if some comparator carries a prerelease tag on the
same major.minor.patch triple. -/
def testSet (v : SemVer) (comps : List Comparator) : Bool :=
  comps.all (matchComparator v) &&
    (v.pre.isEmpty ||
      comps.any (fun c =>
        !c.ver.pre.isEmpty && c.ver.major = v.major && c.ver.minor = v.minor &&
          c.ver.patch = v.patch))

/-- Model of `semver.satisfies(version, range)`: false (never a throw) when
the range or the version is malformed, otherwise true iff some alternative
admits the version. -/
def satisfies (version range : String) : Bool :=
  match parseRange range with
  | none => false
  | some alts =>
    match parseSemVer version with
    | none => false
    | some v => alts.any (fun comps => testSet v comps)

/-! ### The candidate sort and highest-satisfying selection of `main` -/

/-- Model of `semver.compare(a, b)` on version strings. On strings that do
not parse the library throws; the junk values chosen here are never reached
in the program, which only compares strings that already passed
`satisfies`. -/
def cmpVerStr (a b : String) : Ordering :=
  match parseSemVer a, parseSemVer b with
  | some x, some y => x.cmp y
  | some _, none => .gt
  | none, some _ => .lt
  | none, none => .eq

theorem lawful_cmpVerStr : LawfulCmp cmpVerStr where
  swap a b := by
    unfold cmpVerStr
    cases parseSemVer a <;> cases parseSemVer b <;> simp only
    · rfl
    · rfl
    · rfl
    · exact lawful_semverCmp.swap _ _
  lt_trans := by
    intro a b c h1 h2
    unfold cmpVerStr at h1 h2 ⊢
    cases ha : parseSemVer a <;> cases hb : parseSemVer b <;>
      cases hc : parseSemVer c <;>
      rw [ha, hb] at h1 <;> rw [hb, hc] at h2 <;> simp only at h1 h2 ⊢ <;>
      first
        | rfl
        | exact lawful_semverCmp.lt_trans h1 h2
        | exact absurd h1 (by decide)
        | exact absurd h2 (by decide)
  eq_left := by
    intro a b c h1
    unfold cmpVerStr at h1 ⊢
    cases ha : parseSemVer a <;> cases hb : parseSemVer b <;>
      rw [ha, hb] at h1 <;> simp only at h1 ⊢ <;> cases hc : parseSemVer c <;>
      simp only <;>
      first
        | rfl
        | exact lawful_semverCmp.eq_left _ h1
        | exact absurd h1 (by decide)
  refl a := by
    unfold cmpVerStr
    cases parseSemVer a <;> simp only
    exact lawful_semverCmp.refl _

/-- The order in which `satisfyingVersions.sort(semver.rcompare)` lays the
array out: `a` is placed before `b` when `rcompare(a, b) <= 0`, that is,
when `a` is at least `b` under precedence. -/
def rcmpLe (a b : String) : Prop := cmpVerStr b a ≠ .gt

instance : DecidableRel rcmpLe := fun a b =>
  inferInstanceAs (Decidable (cmpVerStr b a ≠ .gt))

instance : IsTotal String rcmpLe :=
  ⟨fun a b => lawful_cmpVerStr.total b a⟩

instance : IsTrans String rcmpLe :=
  ⟨fun _ _ _ h1 h2 => lawful_cmpVerStr.le_trans h2 h1⟩

/-- The versions of the registry list that satisfy the declared range
(`allVersions.filter(version => semver.satisfies(version, currentVersionRange))`). -/
def satisfyingVersions (range : String) (all : List String) : List String :=
  all.filter (fun version => satisfies version range)

/-- Model of
`satisfyingVersions.length ? satisfyingVersions.sort(semver.rcompare)[0] : null`:
the head of the descending sort, if any. -/
def highestSatisfyingVersion (range : String) (all : List String) : Option String :=
  match (satisfyingVersions range all).insertionSort rcmpLe with
  | [] => none
  | v :: _ => some v

/-! ### `checkUpgradeType` and `willSelfUpgrade` -/

/-- JavaScript falsiness of a nullable string: `null`/`undefined` or the
empty string. -/
def falsyS : Option String → Bool
  | none => true
  | some s => s = ""

/-- The classification produced by `checkUpgradeType`. -/
inductive UpgradeType where
  | unknown | noneU | major | minor | patch
deriving DecidableEq

/-- Model of `checkUpgradeType(installedVersion, latestVersion)`. The
`Except.error` value models the TypeError thrown by `semver.eq` /
`semver.major` on a version string that does not parse. -/
def checkUpgradeType (installedVersion latestVersion : Option String) :
    Except String UpgradeType :=
  if falsyS installedVersion || installedVersion == some "unknown" ||
      falsyS latestVersion then
    .ok .unknown
  else
    match installedVersion, latestVersion with
    | some i, some l =>
      match parseSemVer i, parseSemVer l with
      | some a, some b =>
        if a.cmp b = .eq then .ok .noneU
        else if a.major < b.major then .ok .major
        else if a.minor < b.minor then .ok .minor
        else if a.patch < b.patch then .ok .patch
        else .ok .noneU
      | _, _ => .error "Invalid Version"
    | _, _ => .error "Invalid Version"

/-- Model of
`willSelfUpgrade(currentVersionRange, highestSatisfyingVersion, installedVersion, latestVersion)`.
The `Except.error` value models the TypeError thrown by `semver.gt` when
the highest-satisfying or installed version string does not parse. -/
def willSelfUpgrade (currentVersionRange highestSatisfyingVer installedVersion
    latestVersion : Option String) : Except String Bool :=
  if falsyS highestSatisfyingVer || falsyS currentVersionRange ||
      installedVersion == some "unknown" || falsyS latestVersion then
    .ok false
  else
    match highestSatisfyingVer, currentVersionRange with
    | some h, some r =>
      let satisfiesRange := satisfies h r
      match parseSemVer h, installedVersion.bind (fun i => parseSemVer i) with
      | some hv, some iv => .ok (satisfiesRange && hv.cmp iv == .gt)
      | _, _ => .error "Invalid Version"
    | _, _ => .error "Invalid Version"

/-! ### `flattenDependencies` -/

/-- A value in a (possibly nested) dependency declaration mapping: either a
version-range string or a nested sub-mapping, in insertion order. -/
inductive DepValue where
  | str : String → DepValue
  | obj : List (String × DepValue) → DepValue

/-- Model of `flattenDependencies(dependencies, prefix)`. The produced
association list records assignments in execution order; a later entry for
the same key models a JavaScript property overwrite. Note that the
recursive call passes the parent key alone as the new prefix, not the
accumulated one. -/
def flattenDependencies : List (String × DepValue) → String → List (String × String)
  | [], _ => []
  | (k, .str v) :: rest, pre => (pre ++ k, v) :: flattenDependencies rest pre
  | (k, .obj m) :: rest, pre =>
    flattenDependencies m (k ++ "/") ++ flattenDependencies rest pre

/-- The leaves of a nested declaration mapping, each with the full key path
from the root, in traversal order. -/
def leavesObj : List (String × DepValue) → List (List String × String)
  | [] => []
  | (k, .str v) :: rest => ([k], v) :: leavesObj rest
  | (k, .obj m) :: rest =>
    (leavesObj m).map (fun pv => (k :: pv.1, pv.2)) ++ leavesObj rest

/-- The key the claim predicts for a leaf: the full `/`-joined path. -/
def fullPathKey : List String → String
  | [] => ""
  | [k] => k
  | k :: rest => k ++ "/" ++ fullPathKey rest

/-- The key `flattenDependencies` actually produces for a leaf: the leaf's
own key, prefixed by its immediate parent key and `/` when it has a parent;
ancestors above the immediate parent are dropped. -/
def parentLeafKey : List String → String
  | [] => ""
  | [k] => k
  | [p, k] => (p ++ "/") ++ k
  | _ :: rest => parentLeafKey rest

/-- JavaScript property lookup on an assignment list: the value of the
last assignment to the key, if any. -/
def lookupLast (k : String) : List (String × String) → Option String
  | [] => none
  | (k', v) :: rest =>
    match lookupLast k rest with
    | some v' => some v'
    | none => if k' = k then some v else none

/-! ### The per-dependency evaluation pipeline of `main` -/

/-- A successfully fetched and decoded registry payload for one package:
the `dist-tags.latest` value (possibly missing), the publication-time
mapping, and the keys of the `versions` object. -/
structure RegistryData where
  latest : Option String
  time : List (String × String)
  versions : List String
deriving DecidableEq

/-- What `getLastVersionInfo` hands to the rest of the pipeline. -/
structure VersionInfo where
  latestVersion : Option String
  latestVersionDate : Option String
  allVersions : List String
deriving DecidableEq

/-- Model of `getLastVersionInfo`: a failed or malformed registry lookup
(`none`) is caught and degraded to the all-absent record with an empty
version list; otherwise the latest tag, its date and the version keys are
extracted. -/
def getLastVersionInfo (response : Option RegistryData) : VersionInfo :=
  match response with
  | none => ⟨none, none, []⟩
  | some d => ⟨d.latest, d.latest.bind (fun lv => lookupLast lv d.time), d.versions⟩

/-- Model of `createHyperlink(label, url)`. -/
def createHyperlink (label url : String) : String :=
  "\x1b]8;;" ++ url ++ "\x07" ++ label ++ "\x1b]8;;\x07"

/-- The npm page url used for the package-name hyperlink. -/
def npmUrl (name : String) : String :=
  "https://www.npmjs.com/package/" ++ name

/-- The per-dependency record `main` assembles. -/
structure EvalResult where
  packageName : String
  currentVersionRange : String
  highestSatisfyingVer : Option String
  installedVersion : String
  latestVersion : Option String
  latestVersionDate : Option String
  upgradeType : UpgradeType
  selfUpgrade : Bool
deriving DecidableEq

/-- Model of the body of the `Promise.all` callback in `main` for one
dependency: filter and sort the available versions, then classify and
decide self-upgrade, guarding both on the presence of a highest satisfying
version. An `Except.error` models an exception escaping the callback (which
would reject the whole `Promise.all`). -/
def evaluateDep (packageName currentVersionRange installedVersion : String)
    (info : VersionInfo) : Except String EvalResult := do
  let highest := highestSatisfyingVersion currentVersionRange info.allVersions
  let upgradeType ←
    match highest with
    | some _ => checkUpgradeType (some installedVersion) info.latestVersion
    | none => pure UpgradeType.unknown
  let selfUpgrade ←
    match highest with
    | some h =>
      willSelfUpgrade (some currentVersionRange) (some h) (some installedVersion)
        info.latestVersion
    | none => pure false
  pure ⟨createHyperlink packageName (npmUrl packageName), currentVersionRange,
    highest, installedVersion, info.latestVersion, info.latestVersionDate,
    upgradeType, selfUpgrade⟩

/-- Model of the `Promise.all` fan-out over the selected dependencies:
`installed` gives each package's installed version (the sentinel value
"unknown" when unresolvable) and `registry` each package's fetch outcome. -/
def evalAll (packagesToCheck : List (String × String))
    (installed : String → String) (registry : String → Option RegistryData) :
    Except String (List EvalResult) :=
  match packagesToCheck with
  | [] => .ok []
  | (n, r) :: rest => do
    let x ← evaluateDep n r (installed n) (getLastVersionInfo (registry n))
    let xs ← evalAll rest installed registry
    pure (x :: xs)

/-- Model of the `--check` filter step of `main`: with a filter, exit
fatally when `!dependencies[name]` (the name is missing, or its range value
is the empty string and hence falsy), otherwise restrict to that single
entry. -/
def selectPackagesToCheck (checkSpecificPackage : Option String)
    (dependencies : List (String × String)) :
    Except String (List (String × String)) :=
  match checkSpecificPackage with
  | none => .ok dependencies
  | some p =>
    match lookupLast p dependencies with
    | none => .error ("Package " ++ p ++ " is not listed in package.json.")
    | some r =>
      if r = "" then .error ("Package " ++ p ++ " is not listed in package.json.")
      else .ok [(p, r)]

/-- How a run of `main` ends abnormally: a deliberate `process.exit(1)` or
an exception rejecting the `Promise.all`. -/
inductive RunError where
  | fatal : String → RunError
  | thrown : String → RunError
deriving DecidableEq

/-- Model of `main` from the filter check onward: validate the filter, then
evaluate every selected dependency. -/
def runMain (filter : Option String) (deps : List (String × String))
    (installed : String → String) (registry : String → Option RegistryData) :
    Except RunError (List EvalResult) :=
  match selectPackagesToCheck filter deps with
  | .error e => .error (.fatal e)
  | .ok toCheck =>
    match evalAll toCheck installed registry with
    | .error e => .error (.thrown e)
    | .ok rs => .ok rs

/-! ### Facts used by the claim theorems -/

theorem satisfies_parse {v r : String} (h : satisfies v r = true) :
    ∃ x, parseSemVer v = some x := by
  unfold satisfies at h
  cases hr : parseRange r <;> rw [hr] at h
  · simp at h
  · cases hp : parseSemVer v <;> rw [hp] at h
    · simp at h
    · exact ⟨_, rfl⟩

/-- Version-precedence comparison on strings, stated the way the claims use
it: both strings parse and the comparison of the parses is not `gt`. -/
def semverLe (a b : String) : Prop :=
  ∃ x y, parseSemVer a = some x ∧ parseSemVer b = some y ∧ x.cmp y ≠ .gt

theorem parseSemVer_ne_empty {s : String} {v : SemVer}
    (h : parseSemVer s = some v) : s ≠ "" := by
  intro he
  rw [he] at h
  have hp : (parseSemVer "").isSome = true := by rw [h]; rfl
  exact absurd hp (by decide)

theorem parseSemVer_ne_unknown {s : String} {v : SemVer}
    (h : parseSemVer s = some v) : s ≠ "unknown" := by
  intro he
  rw [he] at h
  have hp : (parseSemVer "unknown").isSome = true := by rw [h]; rfl
  exact absurd hp (by decide)

/-- C1: the highest satisfying version computed in `main` is `null` exactly
when no available version satisfies the declared range; otherwise it is one
of the available versions, it satisfies the range, and it is
greatest-or-equal under semver precedence among all satisfying candidates. -/
theorem highestSatisfying_correct (R : String) (S : List String) :
    (highestSatisfyingVersion R S = none ↔ ∀ v ∈ S, satisfies v R = false) ∧
    (∀ v, highestSatisfyingVersion R S = some v →
      v ∈ S ∧ satisfies v R = true ∧
        ∀ u ∈ S, satisfies u R = true → semverLe u v) := by
  have hperm := List.perm_insertionSort rcmpLe (satisfyingVersions R S)
  have hsorted := List.sorted_insertionSort rcmpLe (satisfyingVersions R S)
  unfold highestSatisfyingVersion
  cases hs : (satisfyingVersions R S).insertionSort rcmpLe with
  | nil =>
    rw [hs] at hperm
    have hnil : satisfyingVersions R S = [] := hperm.symm.eq_nil
    constructor
    · constructor
      · intro _ v hv
        by_contra hne
        have hmem : v ∈ satisfyingVersions R S := by
          unfold satisfyingVersions
          exact List.mem_filter.mpr ⟨hv, by simpa using hne⟩
        rw [hnil] at hmem
        exact absurd hmem (List.not_mem_nil v)
      · intro _; rfl
    · intro v hv
      exact absurd hv (by simp)
  | cons w ws =>
    rw [hs] at hperm hsorted
    have hwmem : w ∈ satisfyingVersions R S := hperm.mem_iff.mp (by simp)
    have hwS : w ∈ S ∧ satisfies w R = true := by
      have := hwmem
      unfold satisfyingVersions at this
      simpa using List.mem_filter.mp this
    constructor
    · constructor
      · intro h; exact absurd h (by simp)
      · intro hall
        exact absurd (hall w hwS.1) (by simp [hwS.2])
    · intro v hv
      have hvw : v = w := by
        simpa using hv.symm
      subst hvw
      refine ⟨hwS.1, hwS.2, ?_⟩
      intro u hu hsat
      have humem : u ∈ satisfyingVersions R S := by
        unfold satisfyingVersions
        exact List.mem_filter.mpr ⟨hu, by simpa using hsat⟩
      have hule : rcmpLe v u := by
        rcases List.mem_cons.mp (hperm.symm.mem_iff.mp humem) with h | h
        · subst h
          show cmpVerStr u u ≠ .gt
          rw [lawful_cmpVerStr.refl u]
          simp
        · exact List.rel_of_sorted_cons hsorted u h
      obtain ⟨x, hx⟩ := satisfies_parse hsat
      obtain ⟨y, hy⟩ := satisfies_parse hwS.2
      refine ⟨x, y, hx, hy, ?_⟩
      have : cmpVerStr u v ≠ .gt := hule
      unfold cmpVerStr at this
      rw [hx, hy] at this
      exact this

deriving instance DecidableEq for Except

theorem checkGuard_false {A B : String} (hAe : A ≠ "") (hAu : A ≠ "unknown")
    (hBe : B ≠ "") :
    (falsyS (some A) || (some A == some "unknown") || falsyS (some B)) = false := by
  simp [falsyS, hAe, hAu, hBe]

theorem checkUpgradeType_parsed {A B : String} {a b : SemVer}
    (hA : parseSemVer A = some a) (hB : parseSemVer B = some b) :
    checkUpgradeType (some A) (some B) =
      .ok (if a.cmp b = .eq then .noneU
        else if a.major < b.major then .major
        else if a.minor < b.minor then .minor
        else if a.patch < b.patch then .patch
        else .noneU) := by
  unfold checkUpgradeType
  rw [checkGuard_false (parseSemVer_ne_empty hA) (parseSemVer_ne_unknown hA)
    (parseSemVer_ne_empty hB)]
  simp only [Bool.false_eq_true, if_false]
  rw [hA, hB]
  show (if a.cmp b = Ordering.eq then Except.ok UpgradeType.noneU
    else if a.major < b.major then Except.ok UpgradeType.major
    else if a.minor < b.minor then Except.ok UpgradeType.minor
    else if a.patch < b.patch then Except.ok UpgradeType.patch
    else Except.ok UpgradeType.noneU) = _
  split_ifs <;> rfl

/-- C2 counterexample: latest `1.9.9` is strictly below installed `2.0.0`
under semver precedence and not equal to it, yet `checkUpgradeType`
classifies the pair as `minor`, not `none`. -/
theorem checkUpgradeType_downgrade_counterexample :
    checkUpgradeType (some "2.0.0") (some "1.9.9") = .ok .minor ∧
    checkUpgradeType (some "2.0.0") (some "1.9.9") ≠ .ok .noneU ∧
    (∃ x y, parseSemVer "1.9.9" = some x ∧ parseSemVer "2.0.0" = some y ∧
      x.cmp y = .lt ∧ x ≠ y) := by
  refine ⟨by decide, by decide,
    ⟨⟨1, 9, 9, []⟩, ⟨2, 0, 0, []⟩, by decide, by decide, by decide, by decide⟩⟩

/-- C2 (amended): when every numeric component of the latest version is at
most the corresponding component of the installed version — the case that
actually reaches the classifier's final fall-through, covering pure
prerelease differences and componentwise downgrades — and the two are not
semver-equal (or even when they are), `checkUpgradeType` returns `none`. A
downgrade with some larger lower-order component (such as `2.0.0` to
`1.9.9`) is classified by that component instead. -/
theorem checkUpgradeType_componentwise_downgrade : ∀ (A B : String) (a b : SemVer),
    parseSemVer A = some a → parseSemVer B = some b →
    b.major ≤ a.major → b.minor ≤ a.minor → b.patch ≤ a.patch →
    checkUpgradeType (some A) (some B) = .ok .noneU := by
  intro A B a b hA hB h1 h2 h3
  rw [checkUpgradeType_parsed hA hB]
  split_ifs <;> first | rfl | omega

/-- Witness for the amended C2: `1.2.3-alpha` is componentwise at most
`1.2.3` and not equal to it; the classifier answers `none`. -/
theorem checkUpgradeType_componentwise_downgrade_witness :
    checkUpgradeType (some "1.2.3") (some "1.2.3-alpha") = .ok .noneU :=
  checkUpgradeType_componentwise_downgrade "1.2.3" "1.2.3-alpha" ⟨1, 2, 3, []⟩
    ⟨1, 2, 3, [.alpha ['a', 'l', 'p', 'h', 'a']]⟩ (by decide) (by decide)
    (by decide) (by decide) (by decide)

/-- C8: whenever the latest version's major component strictly exceeds the
installed version's, `checkUpgradeType` answers `major`, regardless of the
minor and patch components. -/
theorem checkUpgradeType_major_dominates : ∀ (A B : String) (a b : SemVer),
    parseSemVer A = some a → parseSemVer B = some b → a.major < b.major →
    checkUpgradeType (some A) (some B) = .ok .major := by
  intro A B a b hA hB hmaj
  rw [checkUpgradeType_parsed hA hB]
  have hne : a.cmp b ≠ .eq := by
    intro he
    unfold SemVer.cmp at he
    rw [Ordering.then_eq_eq] at he
    exact absurd (cmpv_eq_eq.mp he.1) (by omega)
  rw [if_neg hne, if_pos hmaj]

/-- Witness for C8: `1.9.9` to `2.0.0` is a major upgrade even though minor
and patch decrease. -/
theorem checkUpgradeType_major_dominates_witness :
    checkUpgradeType (some "1.9.9") (some "2.0.0") = .ok .major :=
  checkUpgradeType_major_dominates "1.9.9" "2.0.0" ⟨1, 9, 9, []⟩ ⟨2, 0, 0, []⟩
    (by decide) (by decide) (by decide)

/-- C9: `checkUpgradeType` answers `none` on any parseable version paired
with itself, and `unknown` whenever the installed version is absent or the
sentinel string "unknown", or the latest version is absent. -/
theorem checkUpgradeType_refl_and_absent :
    (∀ (A : String) (a : SemVer), parseSemVer A = some a →
      checkUpgradeType (some A) (some A) = .ok .noneU) ∧
    (∀ installed latest : Option String,
      installed = none ∨ installed = some "unknown" ∨ latest = none →
      checkUpgradeType installed latest = .ok .unknown) := by
  constructor
  · intro A a hA
    rw [checkUpgradeType_parsed hA hA]
    rw [if_pos (lawful_semverCmp.refl a)]
  · intro installed latest h
    unfold checkUpgradeType
    rcases h with h | h | h <;> subst h <;> simp [falsyS]

/-- Witness for C9 at `7.6.3` and at the sentinel installed version. -/
theorem checkUpgradeType_refl_and_absent_witness :
    checkUpgradeType (some "7.6.3") (some "7.6.3") = .ok .noneU ∧
    checkUpgradeType (some "unknown") (some "9.9.9") = .ok .unknown :=
  ⟨checkUpgradeType_refl_and_absent.1 "7.6.3" ⟨7, 6, 3, []⟩ (by decide),
   checkUpgradeType_refl_and_absent.2 (some "unknown") (some "9.9.9")
     (Or.inr (Or.inl rfl))⟩

/-- Witness for C1: over the candidates 5.0.0, 4.17.0, 4.17.21 of range
`^4.17.0` the selection is 4.17.21, an element that satisfies the range and
dominates the other satisfying candidate 4.17.0. -/
theorem highestSatisfying_correct_witness :
    highestSatisfyingVersion "^4.17.0" ["5.0.0", "4.17.0", "4.17.21"] =
      some "4.17.21" ∧
    "4.17.21" ∈ ["5.0.0", "4.17.0", "4.17.21"] ∧
    satisfies "4.17.21" "^4.17.0" = true ∧
    semverLe "4.17.0" "4.17.21" := by
  have h := (highestSatisfying_correct "^4.17.0" ["5.0.0", "4.17.0", "4.17.21"]).2
    "4.17.21" (by decide)
  exact ⟨by decide, h.1, h.2.1, h.2.2 "4.17.0" (by decide) (by decide)⟩

/-- The claims' notion of an absent nullable string: JavaScript
null / undefined, or the equally falsy empty string. -/
def absentS (x : Option String) : Prop := x = none ∨ x = some ""

/-- C3: `willSelfUpgrade` answers false whenever the highest-satisfying
version, the range or the latest version is absent or the installed version
is the sentinel "unknown"; otherwise (on parseable inputs) it answers true
exactly when the highest-satisfying version satisfies the range and is
strictly greater than the installed version under precedence. -/
theorem willSelfUpgrade_correct (range highest installed latest : Option String) :
    ((absentS highest ∨ absentS range ∨ installed = some "unknown" ∨
        absentS latest) →
      willSelfUpgrade range highest installed latest = .ok false) ∧
    (∀ h r i l hv iv, highest = some h → range = some r → installed = some i →
      latest = some l → r ≠ "" → l ≠ "" →
      parseSemVer h = some hv → parseSemVer i = some iv →
      willSelfUpgrade range highest installed latest =
        .ok (satisfies h r && hv.cmp iv == .gt)) := by
  constructor
  · intro hcond
    unfold willSelfUpgrade
    rcases hcond with (h | h) | (h | h) | h | (h | h) <;> subst h <;>
      simp [falsyS]
  · intro h r i l hv iv hh hr hi hl hre hle hph hpi
    subst hh; subst hr; subst hi; subst hl
    unfold willSelfUpgrade
    have hguard : (falsyS (some h) || falsyS (some r) ||
        (some i == some "unknown") || falsyS (some l)) = false := by
      simp [falsyS, parseSemVer_ne_empty hph, hre, hle, parseSemVer_ne_unknown hpi]
    rw [hguard]
    simp only [Bool.false_eq_true, if_false, Option.some_bind]
    simp only [hph, hpi]

/-- Witness for C3: the sentinel installed version forces false, and on
range `^1.0.0` with highest-satisfying 1.5.0 over installed 1.0.0 the
verdict is true. -/
theorem willSelfUpgrade_correct_witness :
    willSelfUpgrade (some "^1.0.0") (some "1.5.0") (some "unknown")
      (some "2.0.0") = .ok false ∧
    willSelfUpgrade (some "^1.0.0") (some "1.5.0") (some "1.0.0")
      (some "2.0.0") = .ok true := by
  constructor
  · exact (willSelfUpgrade_correct (some "^1.0.0") (some "1.5.0")
      (some "unknown") (some "2.0.0")).1 (Or.inr (Or.inr (Or.inl rfl)))
  · have h := (willSelfUpgrade_correct (some "^1.0.0") (some "1.5.0")
      (some "1.0.0") (some "2.0.0")).2 "1.5.0" "^1.0.0" "1.0.0" "2.0.0"
      ⟨1, 5, 0, []⟩ ⟨1, 0, 0, []⟩ rfl rfl rfl rfl (by decide) (by decide)
      (by decide) (by decide)
    rw [h]
    decide

/-- C4 counterexample: with a malformed installed version string and a
satisfying candidate present, `checkUpgradeType` — and with it the whole
per-dependency evaluation — throws instead of recovering to the `unknown`
classification. -/
theorem malformedVersion_throws_counterexample :
    checkUpgradeType (some "not.a.version") (some "1.0.0") =
      .error "Invalid Version" ∧
    evaluateDep "p" "*" "not.a.version" ⟨some "1.0.0", none, ["1.0.0"]⟩ =
      .error "Invalid Version" := by
  exact ⟨by decide, by decide⟩

/-- C4 (amended): a malformed range is recovered locally — it admits no
satisfying version, and the per-dependency evaluation still returns a
record with classification `unknown` and no self-upgrade — and the
satisfying-version filter itself never throws; but a malformed non-absent,
non-sentinel version string makes `checkUpgradeType` throw, which rejects
the whole evaluation batch. -/
theorem malformedRange_recovered (r : String) (hr : parseRange r = none) :
    (∀ v, satisfies v r = false) ∧
    (∀ name inst info, evaluateDep name r inst info =
      .ok ⟨createHyperlink name (npmUrl name), r, none, inst,
        info.latestVersion, info.latestVersionDate, .unknown, false⟩) ∧
    (∀ i l, parseSemVer i = none → i ≠ "" → i ≠ "unknown" → l ≠ "" →
      checkUpgradeType (some i) (some l) = .error "Invalid Version") := by
  have hsat : ∀ v, satisfies v r = false := by
    intro v
    unfold satisfies
    rw [hr]
  have hnone : ∀ all, highestSatisfyingVersion r all = none := by
    intro all
    unfold highestSatisfyingVersion satisfyingVersions
    have hfil : List.filter (fun version => satisfies version r) all = [] := by
      rw [List.filter_eq_nil_iff]
      intro a _
      simp [hsat a]
    rw [hfil]
    rfl
  refine ⟨hsat, ?_, ?_⟩
  · intro name inst info
    unfold evaluateDep
    rw [hnone info.allVersions]
    rfl
  · intro i l hpi hie hiu hle
    unfold checkUpgradeType
    have hguard : (falsyS (some i) || (some i == some "unknown") ||
        falsyS (some l)) = false := by
      simp [falsyS, hie, hiu, hle]
    rw [hguard]
    simp only [Bool.false_eq_true, if_false]
    simp only [hpi]

/-- Witness for the amended C4 at the malformed range "not-a-range" and the
malformed version "not.a.version". -/
theorem malformedRange_recovered_witness :
    satisfies "1.0.0" "not-a-range" = false ∧
    evaluateDep "p" "not-a-range" "1.0.0"
        ⟨some "2.0.0", none, ["1.0.0", "2.0.0"]⟩ =
      .ok ⟨createHyperlink "p" (npmUrl "p"), "not-a-range", none, "1.0.0",
        some "2.0.0", none, .unknown, false⟩ ∧
    checkUpgradeType (some "not.a.version") (some "1.0.0") =
      .error "Invalid Version" := by
  have h := malformedRange_recovered "not-a-range" (by decide)
  exact ⟨h.1 "1.0.0",
    h.2.1 "p" "1.0.0" ⟨some "2.0.0", none, ["1.0.0", "2.0.0"]⟩,
    h.2.2 "not.a.version" "1.0.0" (by decide) (by decide) (by decide)
      (by decide)⟩

/-- C5: a failed registry lookup is degraded to the all-absent info record,
the affected package still yields a result — latest version absent, no
available versions, classification `unknown`, no self-upgrade — and the
evaluation of every other package is unchanged by the failure. -/
theorem registryFailure_degrades (p : String) (installed : String → String)
    (registry : String → Option RegistryData) :
    getLastVersionInfo none = ⟨none, none, []⟩ ∧
    (∀ r, evaluateDep p r (installed p)
        (getLastVersionInfo ((fun n => if n = p then none else registry n) p)) =
      .ok ⟨createHyperlink p (npmUrl p), r, none, installed p, none, none,
        .unknown, false⟩) ∧
    (∀ n r, n ≠ p →
      evaluateDep n r (installed n)
          (getLastVersionInfo ((fun n => if n = p then none else registry n) n)) =
        evaluateDep n r (installed n) (getLastVersionInfo (registry n))) := by
  refine ⟨rfl, ?_, ?_⟩
  · intro r
    simp only [if_pos rfl]
    rfl
  · intro n r hnp
    simp only [if_neg hnp]

/-- Witness for C5: the failing package "left-pad" degrades to the unknown
record while its sibling "chalk" evaluates exactly as without the failure. -/
theorem registryFailure_degrades_witness :
    evaluateDep "left-pad" "^1.0.0" "1.0.0"
        (getLastVersionInfo ((fun n => if n = "left-pad" then none
          else some ⟨some "1.3.0", [], ["1.3.0"]⟩) "left-pad")) =
      .ok ⟨createHyperlink "left-pad" (npmUrl "left-pad"), "^1.0.0", none,
        "1.0.0", none, none, .unknown, false⟩ ∧
    evaluateDep "chalk" "^1.0.0" "1.0.0"
        (getLastVersionInfo ((fun n => if n = "left-pad" then none
          else some ⟨some "1.3.0", [], ["1.3.0"]⟩) "chalk")) =
      evaluateDep "chalk" "^1.0.0" "1.0.0"
        (getLastVersionInfo (some ⟨some "1.3.0", [], ["1.3.0"]⟩)) := by
  have h := registryFailure_degrades "left-pad" (fun _ => "1.0.0")
    (fun _ => some ⟨some "1.3.0", [], ["1.3.0"]⟩)
  exact ⟨h.2.1 "^1.0.0", h.2.2 "chalk" "^1.0.0" (by decide)⟩

/-- C10: whenever no available version satisfies the declared range, the
assembled record has classification `unknown` and no self-upgrade, whatever
the installed and latest versions are — the classifier is bypassed. -/
theorem noSatisfying_overrides (name range installed : String)
    (info : VersionInfo)
    (h : highestSatisfyingVersion range info.allVersions = none) :
    evaluateDep name range installed info =
      .ok ⟨createHyperlink name (npmUrl name), range, none, installed,
        info.latestVersion, info.latestVersionDate, .unknown, false⟩ := by
  unfold evaluateDep
  rw [h]
  rfl

/-- Witness for C10: range `^9.0.0` admits none of the available versions,
and despite parseable, distinct installed 4.17.0 and latest 4.17.21 the
record reports `unknown` and no self-upgrade. -/
theorem noSatisfying_overrides_witness :
    evaluateDep "lodash" "^9.0.0" "4.17.0"
        ⟨some "4.17.21", none, ["4.17.0", "4.17.21"]⟩ =
      .ok ⟨createHyperlink "lodash" (npmUrl "lodash"), "^9.0.0", none,
        "4.17.0", some "4.17.21", none, .unknown, false⟩ ∧
    (parseSemVer "4.17.0").isSome = true ∧
    (parseSemVer "4.17.21").isSome = true ∧
    "4.17.0" ≠ "4.17.21" :=
  ⟨noSatisfying_overrides "lodash" "^9.0.0" "4.17.0"
      ⟨some "4.17.21", none, ["4.17.0", "4.17.21"]⟩ (by decide),
    by decide, by decide, by decide⟩

/-- C7 counterexample: package "p" is present in the flattened dependency
set — with the empty range string — yet the run exits fatally instead of
evaluating it. -/
theorem filterPresent_fatal_counterexample :
    lookupLast "p" [("p", "")] = some "" ∧
    runMain (some "p") [("p", "")] (fun _ => "unknown") (fun _ => none) =
      .error (.fatal ("Package " ++ "p" ++ " is not listed in package.json.")) := by
  exact ⟨by decide, by decide⟩

/-- C7 (amended): when the filtered name is missing from the flattened set,
or present only with the falsy empty range string, the run fails fatally
before any per-dependency evaluation — the outcome is the same for every
installed-version and registry oracle; when the name is present with a
nonempty range, the run behaves exactly as if that entry were the only
declared dependency. -/
theorem filter_behavior (p : String) (deps : List (String × String))
    (installed : String → String) (registry : String → Option RegistryData) :
    ((lookupLast p deps = none ∨ lookupLast p deps = some "") →
      runMain (some p) deps installed registry =
        .error (.fatal ("Package " ++ p ++ " is not listed in package.json."))) ∧
    (∀ r, lookupLast p deps = some r → r ≠ "" →
      runMain (some p) deps installed registry =
        runMain (some p) [(p, r)] installed registry) := by
  constructor
  · intro h
    unfold runMain selectPackagesToCheck
    rcases h with h | h <;> simp [h]
  · intro r hlook hrne
    have hone : lookupLast p [(p, r)] = some r := by
      simp [lookupLast]
    unfold runMain selectPackagesToCheck
    simp only [hlook, hone, if_neg hrne]

/-- Witness for C7 (amended): filtering for the undeclared "chalk" is fatal
for any oracles; filtering for a declared "chalk" behaves as if it were the
only dependency. -/
theorem filter_behavior_witness :
    runMain (some "chalk") [("lodash", "^4.0.0")] (fun _ => "1.0.0")
        (fun _ => none) =
      .error (.fatal ("Package " ++ "chalk" ++ " is not listed in package.json.")) ∧
    runMain (some "chalk") [("chalk", "^5.0.0"), ("lodash", "^4.0.0")]
        (fun _ => "unknown") (fun _ => none) =
      runMain (some "chalk") [("chalk", "^5.0.0")] (fun _ => "unknown")
        (fun _ => none) := by
  constructor
  · exact (filter_behavior "chalk" [("lodash", "^4.0.0")] (fun _ => "1.0.0")
      (fun _ => none)).1 (Or.inl (by decide))
  · exact (filter_behavior "chalk" [("chalk", "^5.0.0"), ("lodash", "^4.0.0")]
      (fun _ => "unknown") (fun _ => none)).2 "^5.0.0" (by decide) (by decide)

/-- C6 counterexample: in the doubly nested declaration the leaf `c` gets
the flattened key "b/c" — only its immediate parent's prefix — not the full
root path "a/b/c" the claim predicts, which is absent from the result. -/
theorem flatten_fullPath_counterexample :
    flattenDependencies [("a", .obj [("b", .obj [("c", .str "1.0.0")])])] "" =
      [("b/c", "1.0.0")] ∧
    fullPathKey ["a", "b", "c"] = "a/b/c" ∧
    leavesObj [("a", .obj [("b", .obj [("c", .str "1.0.0")])])] =
      [(["a", "b", "c"], "1.0.0")] ∧
    lookupLast "a/b/c" [("b/c", "1.0.0")] = none := by
  refine ⟨?_, by decide, ?_, by decide⟩
  · simp only [flattenDependencies, List.append_nil, List.nil_append]
    decide
  · simp only [leavesObj, List.map_nil, List.map_cons, List.nil_append]
    decide

/-- The key the flattening assigns to a leaf reached through path `p` while
the current call holds prefix `pre`: the prefix applies only to immediate
leaves; once the walk descends, only the immediate parent key survives. -/
def preKeyFlat (pre : String) : List String → String
  | [] => pre
  | [k] => pre ++ k
  | p => parentLeafKey p

theorem preKeyFlat_cons (pre k : String) :
    ∀ path, path ≠ [] → preKeyFlat pre (k :: path) = preKeyFlat (k ++ "/") path
  | [], h => absurd rfl h
  | [_], _ => rfl
  | _ :: _ :: _, _ => rfl

theorem leavesObj_path_ne_nil :
    ∀ (deps : List (String × DepValue)), ∀ pv ∈ leavesObj deps, pv.1 ≠ []
  | [] => by simp [leavesObj]
  | (k, .str v) :: rest => by
    intro pv hpv
    simp only [leavesObj, List.mem_cons] at hpv
    rcases hpv with h | h
    · subst h; simp
    · exact leavesObj_path_ne_nil rest pv h
  | (k, .obj m) :: rest => by
    intro pv hpv
    simp only [leavesObj, List.mem_append, List.mem_map] at hpv
    rcases hpv with ⟨q, _, he⟩ | h
    · rw [← he]; simp
    · exact leavesObj_path_ne_nil rest pv h

theorem flattenDependencies_eq_leaves :
    ∀ (deps : List (String × DepValue)) (pre : String),
      flattenDependencies deps pre =
        (leavesObj deps).map (fun pv => (preKeyFlat pre pv.1, pv.2))
  | [], pre => by simp [flattenDependencies, leavesObj]
  | (k, .str v) :: rest, pre => by
    simp only [flattenDependencies, leavesObj, List.map_cons]
    rw [flattenDependencies_eq_leaves rest pre]
    rfl
  | (k, .obj m) :: rest, pre => by
    simp only [flattenDependencies, leavesObj, List.map_append, List.map_map]
    rw [flattenDependencies_eq_leaves m (k ++ "/"),
      flattenDependencies_eq_leaves rest pre]
    congr 1
    apply List.map_congr_left
    intro pv hpv
    have hne := leavesObj_path_ne_nil m pv hpv
    simp only [Function.comp_apply]
    rw [preKeyFlat_cons pre k pv.1 hne]
termination_by deps _ => sizeOf deps

/-- C6 (amended): flattening maps each leaf of the nested declaration
structure to its value under the key formed from the leaf's own key,
prefixed — when the leaf is nested at any depth — by its immediate parent
key and "/" only; ancestors above the immediate parent are dropped, so
leaves with the same parent/leaf key pair are not distinguished across
different nesting depths. -/
theorem flatten_parentLeafKey (deps : List (String × DepValue)) :
    flattenDependencies deps "" =
      (leavesObj deps).map (fun pv => (parentLeafKey pv.1, pv.2)) := by
  rw [flattenDependencies_eq_leaves deps ""]
  apply List.map_congr_left
  intro pv hpv
  have hne := leavesObj_path_ne_nil deps pv hpv
  obtain ⟨path, val⟩ := pv
  simp only at hne ⊢
  cases path with
  | nil => exact absurd rfl hne
  | cons q t =>
    cases t with
    | nil => rfl
    | cons q' t' => rfl
